import Mathlib

/-!
Verification of the deduplication engine in `src/dedup.py` (AppGenie).

Strings are embedded as `List Char`.  The functions `preProcess`, `readData`,
`setup` and `writeResults` below are shallow embeddings of the Python
functions of the same names; the external `dedupe` library calls inside
`setup` (training, labeling, matching) are modelled abstractly, following the
specification's contracts for them, since their code is not part of this
repository.
-/

set_option maxHeartbeats 1000000

abbrev Str := List Char

/-- The double-quote character `"`. -/
def dquote : Char := Char.ofNat 34

/-- The single-quote character. -/
def squote : Char := Char.ofNat 39

/-- A finite fragment of the `unidecode` transliteration table: each
non-ASCII character is mapped to its closest ASCII transliteration
(a possibly empty sequence of ASCII characters). -/
def unidecodeTable : List (Char × Str) :=
  [('á', ['a']), ('à', ['a']), ('ä', ['a']), ('â', ['a']),
   ('é', ['e']), ('è', ['e']), ('ê', ['e']), ('ë', ['e']),
   ('í', ['i']), ('ì', ['i']), ('ï', ['i']),
   ('ó', ['o']), ('ò', ['o']), ('ö', ['o']), ('ô', ['o']),
   ('ú', ['u']), ('ù', ['u']), ('ü', ['u']),
   ('ñ', ['n']), ('ç', ['c']),
   ('Á', ['A']), ('É', ['E']), ('Í', ['I']), ('Ó', ['O']), ('Ú', ['U']),
   ('Ñ', ['N']), ('Ü', ['U']),
   ('ß', ['s', 's']), ('œ', ['o', 'e']), ('Æ', ['A', 'E']), ('æ', ['a', 'e']),
   (Char.ofNat 0x2018, [squote]), (Char.ofNat 0x2019, [squote]),
   (Char.ofNat 0x201C, [dquote]), (Char.ofNat 0x201D, [dquote]),
   (Char.ofNat 0x2013, ['-']), (Char.ofNat 0x2014, ['-']),
   (Char.ofNat 0x2026, ['.', '.', '.']),
   (Char.ofNat 0x3000, [' ']), (Char.ofNat 0xA0, [' '])]

/-- `unidecode` on a single character: ASCII characters (code point < 128)
pass through unchanged; non-ASCII characters are transliterated through the
table, and characters without a mapping yield the empty string (the
library's default behaviour). -/
def unidecodeChar (c : Char) : Str :=
  if c.toNat < 128 then [c]
  else ((unidecodeTable.find? (fun p => p.1 == c)).map (fun p => p.2)).getD []

/-- `unidecode(column)` from line 35 of `dedup.py`: transliterate every
character and concatenate the results. -/
def unidecode (s : Str) : Str := (s.map unidecodeChar).flatten

/-- Worker for `collapseSpaces`; the Boolean records whether the previously
emitted character was a space (in which case further spaces are dropped).
Replacing every maximal run of spaces by a single space is the same
transformation as `re.sub("  +", " ", column)` (line 36 of `dedup.py`),
because a run of length one is left unchanged by both. -/
def collapseAux : Bool → Str → Str
  | _, [] => []
  | prevSpace, c :: rest =>
    if c == ' ' then
      if prevSpace then collapseAux true rest
      else ' ' :: collapseAux true rest
    else c :: collapseAux false rest

/-- `re.sub("  +", " ", column)` from line 36 of `dedup.py`. -/
def collapseSpaces (s : Str) : Str := collapseAux false s

/-- `re.sub("\n", " ", column)` from line 37 of `dedup.py`: replace every
newline character by a space. -/
def subNewline (s : Str) : Str := s.map (fun c => if c == '\n' then ' ' else c)

/-- Python's `str.isspace` character class, used by `str.strip()` with no
arguments: ASCII whitespace, the C1 separators, and the Unicode space
separators. -/
def pyIsSpace (c : Char) : Bool :=
  let n := c.toNat
  n == 32 || n == 9 || n == 10 || n == 11 || n == 12 || n == 13 ||
  (28 ≤ n && n ≤ 31) || n == 133 || n == 160 || n == 5760 ||
  (8192 ≤ n && n ≤ 8202) || n == 8232 || n == 8233 || n == 8239 ||
  n == 8287 || n == 12288

/-- Python's `str.strip(chars)`: drop the longest run of characters
satisfying `p` from both ends of the string. -/
def stripChars (p : Char → Bool) (l : Str) : Str :=
  ((l.dropWhile p).reverse.dropWhile p).reverse

/-- The 26 upper-case ASCII letters and their lower-case forms. -/
def lowerTable : List (Char × Char) :=
  [('A', 'a'), ('B', 'b'), ('C', 'c'), ('D', 'd'), ('E', 'e'), ('F', 'f'),
   ('G', 'g'), ('H', 'h'), ('I', 'i'), ('J', 'j'), ('K', 'k'), ('L', 'l'),
   ('M', 'm'), ('N', 'n'), ('O', 'o'), ('P', 'p'), ('Q', 'q'), ('R', 'r'),
   ('S', 's'), ('T', 't'), ('U', 'u'), ('V', 'v'), ('W', 'w'), ('X', 'x'),
   ('Y', 'y'), ('Z', 'z')]

/-- `str.lower()` restricted to ASCII.  Inside `preProcess`, `lower` is only
ever applied after `unidecode`, whose output is pure ASCII, so the ASCII
case table is the whole behaviour on reachable inputs. -/
def asciiLower (c : Char) : Char :=
  ((lowerTable.find? (fun p => p.1 == c)).map (fun p => p.2)).getD c

/-- `preProcess` from lines 34-41 of `dedup.py`, applied to a string
argument.  The stages, in source order:
`unidecode`; `re.sub("  +", " ")`; `re.sub("\n", " ")`;
`.strip().strip(dquote).strip(squote).lower().strip()`; and
`if not column: column = None`. -/
def preProcess (s : Str) : Option Str :=
  let c1 := unidecode s
  let c2 := collapseSpaces c1
  let c3 := subNewline c2
  let c4 := stripChars pyIsSpace c3
  let c5 := stripChars (fun c => c == dquote) c4
  let c6 := stripChars (fun c => c == squote) c5
  let c7 := c6.map asciiLower
  let c8 := stripChars pyIsSpace c7
  if c8.isEmpty then none else some c8

/-- The Python-level errors our embedding distinguishes. -/
inductive PyError where
  | typeError
  | keyError
  deriving DecidableEq

/-- `preProcess` as called on the value of a CSV cell, which can be absent
(`None`, e.g. for a short row under `csv.DictReader`).  The function body of
`preProcess` has no `None` guard: `unidecode(None)` (line 35) fails at once
because `None` is not a string, so a `None` argument raises instead of
passing through. -/
def preProcessPy : Option Str → Except PyError (Option Str)
  | none => .error .typeError
  | some s => .ok (preProcess s)

/-- Worker for `hasAdj`; `prev` is the preceding character. -/
def hasAdjAux (p : Char → Bool) : Char → Str → Bool
  | _, [] => false
  | prev, c :: rest => (p prev && p c) || hasAdjAux p c rest

/-- `hasAdj p l` holds when `l` contains two adjacent characters both
satisfying `p`. -/
def hasAdj (p : Char → Bool) : Str → Bool
  | [] => false
  | c :: rest => hasAdjAux p c rest

/-- Whether a character is exactly the ASCII space. -/
def isSpaceChar (c : Char) : Bool := c == ' '

/-- The composite of all the string-rewriting stages of `preProcess`
(everything except the final empty-to-`None` test). -/
def ppCore (s : Str) : Str :=
  stripChars pyIsSpace
    ((stripChars (fun c => c == squote)
      (stripChars (fun c => c == dquote)
        (stripChars pyIsSpace
          (subNewline (collapseSpaces (unidecode s)))))).map asciiLower)

/-- Neither end of the string is a quote character. -/
def noQuoteEnds (r : Str) : Bool :=
  !(r.head?.any (fun c => c == dquote || c == squote)) &&
  !(r.getLast?.any (fun c => c == dquote || c == squote))

/-- One parsed CSV row as produced by `csv.DictReader`: an association list
from field name to raw field value (a Python dict, so keys are unique in
actual runs). -/
abbrev Row := List (String × Str)

/-- A cleaned row: field name to normalized (possibly null) value. -/
abbrev CleanRow := List (String × Option Str)

/-- Python dict assignment `d[k] = v` on an insertion-ordered association
list: the first (in a dict, only) entry with the key is updated in place,
keeping its position and key object; a new key is appended at the end. -/
def dictInsert {α β : Type} [BEq α] : List (α × β) → α → β → List (α × β)
  | [], k, v => [(k, v)]
  | q :: d, k, v => if q.1 == k then (q.1, v) :: d else q :: dictInsert d k v

/-- `dict(pairs)` in Python: fold dict assignment over the pair list. -/
def pyDict {α β : Type} [BEq α] (ps : List (α × β)) : List (α × β) :=
  ps.foldl (fun d q => dictInsert d q.1 q.2) []

/-- Association-list lookup: the value of the first entry with the key. -/
def lookupKey {α β : Type} [BEq α] (d : List (α × β)) (k : α) : Option β :=
  (d.find? (fun q => q.1 == k)).map (fun q => q.2)

/-- `[(k, preProcess(v)) for (k, v) in row.items()]` (line 53 of
`dedup.py`). -/
def cleanRow (row : Row) : CleanRow :=
  row.map (fun kv => (kv.1, preProcess kv.2))

/-- The loop of lines 52-55 of `dedup.py`, threading the accumulated dict
`data_d`: clean the row, look up the raw `listing_id` (a `KeyError` when
absent), and assign `data_d[row_id] = dict(clean_row)`. -/
def readDataAux : List Row → List (Str × CleanRow) → Except PyError (List (Str × CleanRow))
  | [], d => .ok d
  | row :: rest, d =>
    match lookupKey row "listing_id" with
    | none => .error .keyError
    | some rid => readDataAux rest (dictInsert d rid (pyDict (cleanRow row)))

/-- `readData` from lines 44-56 of `dedup.py`, applied to the parsed rows of
the CSV file (the `os.path.exists` assertion and the CSV parsing itself are
file I/O, outside the model). -/
def readData (rows : List Row) : Except PyError (List (Str × CleanRow)) :=
  readDataAux rows []

/-- The `cluster_membership` construction of `writeResults` (lines 105-111
of `dedup.py`): `enumerate(clustered_dupes)` pairs each cluster with its
positional index, and for each `(record_id, score)` in
`zip(records, scores)` the loop assigns
`cluster_membership[record_id] = (cluster_id, score)`.  The final
`json.dump` (lines 113-114) is file I/O, outside the model; the score type
`σ` is kept abstract, standing for the library's numpy floats. -/
def writeResults {σ : Type} (clustered_dupes : List (List Str × List σ)) :
    List (Str × (Nat × σ)) :=
  clustered_dupes.enum.foldl
    (fun acc ic =>
      (ic.2.1.zip ic.2.2).foldl (fun a rs => dictInsert a rs.1 (ic.1, rs.2)) acc)
    []

/-- The specification's description of the `writeResults` output, written
from the claim: cluster identifiers are the consecutive positional indices
0, 1, 2, … in cluster production order, and every record of cluster `i` is
mapped to the pair of `i` and that record's confidence score. -/
def writeResultsSpec {σ : Type} (clustered_dupes : List (List Str × List σ)) :
    List (Str × (Nat × σ)) :=
  (clustered_dupes.enum.map
    (fun ic => (ic.2.1.zip ic.2.2).map (fun rs => (rs.1, (ic.1, rs.2))))).flatten

/-- A labeled example: a candidate pair of record identifiers plus the
oracle's binary judgment (`true` = match, `false` = distinct). -/
abbrev Lbl := (Str × Str) × Bool

/-- A trained classifier model.  Modelled from the spec (§4.5): the
`dedupe` library's model object is opaque to this repository; the claims
only need that it is a deterministic function of the full accumulated
labeled-example set, so it is represented by that set. -/
abbrev Model := List Lbl

/-- The on-disk state `setup` interacts with: the training file and the
settings file, each either absent (`none`) or present with parsed
contents. -/
structure FS where
  training : Option (List Lbl)
  settings : Option Model
  deriving DecidableEq

/-- The observable actions of `setup`, in order of occurrence:
loading the settings file (line 79-80), `prepare_training` seeded from the
training file (line 85-86) or fresh (line 88), `console_label` (line 90),
`train` (line 92), `write_training` (line 94-95), `write_settings`
(line 97-98), and `match` (line 100). -/
inductive Event where
  | readSettings
  | prepTrainingFile
  | prepTrainingFresh
  | consoleLabel
  | trainCall
  | writeTraining
  | writeSettings
  | matchCall
  deriving DecidableEq

/-- Errors surfaced by `setup`: a failure while reading the input data, or
the training failure of `deduper.train()`. -/
inductive SetupError where
  | inputError
  | insufficientTrainingData
  deriving DecidableEq

/-- `deduper.train()` (line 92).  Modelled from the spec (§4.5): training
fails with `InsufficientTrainingDataError` unless the labeled set contains
at least one positive (match) and one negative (distinct) example; on
success the model is determined by the full accumulated labeled set. -/
def trainModel (labels : List Lbl) : Except SetupError Model :=
  if labels.any (fun l => l.2) && labels.any (fun l => !l.2) then .ok labels
  else .error .insufficientTrainingData

/-- `setup` from lines 66-101 of `dedup.py`, over the parsed input rows, the
on-disk state, and the labels the oracle supplies during `console_label`.
Returns the on-disk state after the call, the trace of actions performed,
and either the error raised or the pair (model used, data matched) standing
for the `deduper.match(data_d, 0.5)` call of line 100.  Control flow
mirrors the source: read the data (line 76); if the settings file exists,
load it and match (lines 77-80, 100); otherwise seed training from the
training file when present (lines 83-88), label (line 90), train (line 92),
write the training file (lines 94-95), write the settings file
(lines 97-98), and match (line 100).  An exception leaves the on-disk state
as it was at that point. -/
def setup (fs : FS) (rows : List Row) (sessionLabels : List Lbl) :
    FS × List Event × Except SetupError (Model × List (Str × CleanRow)) :=
  match readData rows with
  | .error _ => (fs, [], .error .inputError)
  | .ok data_d =>
    match fs.settings with
    | some m => (fs, [.readSettings, .matchCall], .ok (m, data_d))
    | none =>
      let labels0 := fs.training.getD []
      let ev0 := match fs.training with
        | some _ => [Event.prepTrainingFile]
        | none => [Event.prepTrainingFresh]
      let labels := labels0 ++ sessionLabels
      match trainModel labels with
      | .error e => (fs, ev0 ++ [.consoleLabel, .trainCall], .error e)
      | .ok m =>
        ({ training := some labels, settings := some m },
         ev0 ++ [.consoleLabel, .trainCall, .writeTraining, .writeSettings, .matchCall],
         .ok (m, data_d))

theorem hasAdj_cons (p : Char → Bool) (c : Char) (rest : Str) :
    hasAdj p (c :: rest) = hasAdjAux p c rest := rfl

theorem hasAdjAux_eq (p : Char → Bool) (prev : Char) (l : Str) :
    hasAdjAux p prev l = ((p prev && l.head?.any p) || hasAdj p l) := by
  cases l with
  | nil => simp [hasAdjAux, hasAdj]
  | cons c rest => simp [hasAdjAux, hasAdj, Option.any]

theorem hasAdj_of_hasAdjAux {p : Char → Bool} {prev : Char} {l : Str}
    (h : hasAdjAux p prev l = false) : hasAdj p l = false := by
  rw [hasAdjAux_eq] at h
  exact (Bool.or_eq_false_iff.mp h).2

theorem hasAdjAux_append_left {p : Char → Bool} {u v : Str} :
    ∀ {prev : Char}, hasAdjAux p prev (u ++ v) = false → hasAdjAux p prev u = false := by
  induction u with
  | nil => intro prev _; rfl
  | cons c u' ih =>
    intro prev h
    simp only [List.cons_append, hasAdjAux, Bool.or_eq_false_iff] at h ⊢
    exact ⟨h.1, ih h.2⟩

theorem hasAdjAux_append_right {p : Char → Bool} {u v : Str} :
    ∀ {prev : Char}, hasAdjAux p prev (u ++ v) = false → hasAdj p v = false := by
  induction u with
  | nil => intro prev h; exact hasAdj_of_hasAdjAux h
  | cons c u' ih =>
    intro prev h
    simp only [List.cons_append, hasAdjAux, Bool.or_eq_false_iff] at h
    exact ih h.2

theorem hasAdj_append_left {p : Char → Bool} {u v : Str}
    (h : hasAdj p (u ++ v) = false) : hasAdj p u = false := by
  cases u with
  | nil => rfl
  | cons c u' => exact hasAdjAux_append_left (u := u') h

theorem hasAdj_append_right {p : Char → Bool} {u v : Str}
    (h : hasAdj p (u ++ v) = false) : hasAdj p v = false := by
  cases u with
  | nil => exact h
  | cons c u' => exact hasAdjAux_append_right (u := u') h

theorem hasAdj_within {p : Char → Bool} {l' l : Str} (hinf : l' <:+: l)
    (h : hasAdj p l = false) : hasAdj p l' = false := by
  obtain ⟨s, t, rfl⟩ := hinf
  exact hasAdj_append_left (hasAdj_append_right (u := s) (by simpa using h))

theorem hasAdjAux_map {p : Char → Bool} {f : Char → Char}
    (hf : ∀ c, p (f c) = p c) :
    ∀ (l : Str) (prev : Char), hasAdjAux p (f prev) (l.map f) = hasAdjAux p prev l
  | [], _ => rfl
  | c :: rest, prev => by
    simp only [List.map_cons, hasAdjAux, hf, hasAdjAux_map hf rest c]

theorem hasAdj_map {p : Char → Bool} {f : Char → Char}
    (hf : ∀ c, p (f c) = p c) (l : Str) :
    hasAdj p (l.map f) = hasAdj p l := by
  cases l with
  | nil => rfl
  | cons c rest => exact hasAdjAux_map hf rest c

theorem collapseAux_subset : ∀ (l : Str) (b : Bool) (c : Char),
    c ∈ collapseAux b l → c ∈ l
  | [], _, _ => by simp [collapseAux]
  | d :: rest, b, c => by
    by_cases hd : d == ' '
    · cases b with
      | true =>
        intro h
        simp only [collapseAux, hd, if_true] at h
        exact List.mem_cons_of_mem _ (collapseAux_subset rest true c h)
      | false =>
        intro h
        simp only [collapseAux, hd, if_true] at h
        rcases List.mem_cons.mp h with h1 | h2
        · subst h1; exact List.mem_cons.mpr (Or.inl (eq_of_beq hd).symm)
        · exact List.mem_cons_of_mem _ (collapseAux_subset rest true c h2)
    · intro h
      simp only [collapseAux, hd, if_false, Bool.false_eq_true] at h
      rcases List.mem_cons.mp h with h1 | h2
      · subst h1; exact List.mem_cons_self _ _
      · exact List.mem_cons_of_mem _ (collapseAux_subset rest false c h2)

theorem collapseAux_spec : ∀ (l : Str) (b : Bool),
    hasAdj isSpaceChar (collapseAux b l) = false ∧
      (b = true → (collapseAux b l).head?.any isSpaceChar = false)
  | [], b => by simp [collapseAux, hasAdj]
  | c :: rest, b => by
    by_cases hc : c == ' '
    · cases b with
      | true =>
        simp only [collapseAux, hc, if_true]
        exact ⟨(collapseAux_spec rest true).1,
          fun _ => (collapseAux_spec rest true).2 rfl⟩
      | false =>
        have ih := collapseAux_spec rest true
        simp only [collapseAux, hc, if_true, Bool.false_eq_true, if_false]
        refine ⟨?_, fun h => by cases h⟩
        rw [hasAdj_cons, hasAdjAux_eq]
        simp [ih.1, ih.2 rfl]
    · have ih := collapseAux_spec rest false
      simp only [collapseAux, hc, if_false, Bool.false_eq_true]
      constructor
      · rw [hasAdj_cons, hasAdjAux_eq]
        simp [isSpaceChar, hc, ih.1]
      · intro _
        simp [Option.any, isSpaceChar, hc]

theorem collapseSpaces_noAdj (s : Str) :
    hasAdj isSpaceChar (collapseSpaces s) = false :=
  (collapseAux_spec s false).1

theorem collapseAux_eq_self : ∀ (l : Str) (b : Bool),
    hasAdj isSpaceChar l = false →
    (b = true → l.head?.any isSpaceChar = false) →
    collapseAux b l = l
  | [], _, _, _ => rfl
  | c :: rest, b, h1, h2 => by
    rw [hasAdj_cons, hasAdjAux_eq] at h1
    rcases Bool.or_eq_false_iff.mp h1 with ⟨hhead, htail⟩
    by_cases hc : c == ' '
    · have hb : b = false := by
        cases b with
        | false => rfl
        | true =>
          have := h2 rfl
          simp [Option.any, isSpaceChar, hc] at this
      subst hb
      simp only [collapseAux, hc, if_true]
      have hcs : isSpaceChar c = true := by simp [isSpaceChar, hc]
      rw [hcs, Bool.true_and] at hhead
      rw [collapseAux_eq_self rest true htail (fun _ => hhead)]
      exact congrArg (· :: rest) (eq_of_beq hc).symm
    · simp only [collapseAux, hc, if_false, Bool.false_eq_true]
      rw [collapseAux_eq_self rest false htail (fun h => by cases h)]

theorem collapseSpaces_eq_self {l : Str} (h : hasAdj isSpaceChar l = false) :
    collapseSpaces l = l :=
  collapseAux_eq_self l false h (fun hf => by cases hf)

theorem head?_of_isPrefix {l t : Str} (h : l <+: t) (hne : l ≠ []) :
    t.head? = l.head? := by
  obtain ⟨u, rfl⟩ := h
  cases l with
  | nil => exact absurd rfl hne
  | cons c l' => rfl

theorem dropWhile_eq_self_of_head {p : Char → Bool} {l : Str}
    (h : ∀ c, l.head? = some c → p c = false) : l.dropWhile p = l := by
  cases l with
  | nil => rfl
  | cons c t => exact List.dropWhile_cons_of_neg (by simp [h c rfl])

theorem stripChars_isPrefix_dropWhile (p : Char → Bool) (l : Str) :
    stripChars p l <+: l.dropWhile p := by
  have hB : ((l.dropWhile p).reverse.dropWhile p) <:+ (l.dropWhile p).reverse :=
    List.dropWhile_suffix p
  have : (((l.dropWhile p).reverse.dropWhile p).reverse).reverse <:+
      (l.dropWhile p).reverse := by
    rwa [List.reverse_reverse]
  exact List.reverse_suffix.mp this

theorem stripChars_within (p : Char → Bool) (l : Str) : stripChars p l <:+: l :=
  ((stripChars_isPrefix_dropWhile p l).isInfix).trans
    (List.dropWhile_suffix p).isInfix

theorem stripChars_subset {p : Char → Bool} {l : Str} {c : Char}
    (h : c ∈ stripChars p l) : c ∈ l :=
  (stripChars_within p l).subset h

theorem stripChars_eq_self {p : Char → Bool} {l : Str}
    (h1 : ∀ c, l.head? = some c → p c = false)
    (h2 : ∀ c, l.getLast? = some c → p c = false) : stripChars p l = l := by
  unfold stripChars
  rw [dropWhile_eq_self_of_head h1,
    dropWhile_eq_self_of_head (by rwa [List.head?_reverse]),
    List.reverse_reverse]

theorem stripChars_head {p : Char → Bool} {l : Str} {c : Char}
    (h : (stripChars p l).head? = some c) : p c = false := by
  have hne : stripChars p l ≠ [] := by
    intro hnil; rw [hnil] at h; cases h
  have hpre := stripChars_isPrefix_dropWhile p l
  have hh : (l.dropWhile p).head? = some c := by
    rw [head?_of_isPrefix hpre hne]; exact h
  have := List.head?_dropWhile_not p l
  rw [hh] at this
  exact this

theorem stripChars_getLast {p : Char → Bool} {l : Str} {c : Char}
    (h : (stripChars p l).getLast? = some c) : p c = false := by
  have hh : ((l.dropWhile p).reverse.dropWhile p).head? = some c := by
    rw [← List.getLast?_reverse]
    unfold stripChars at h
    exact h
  have := List.head?_dropWhile_not p (l.dropWhile p).reverse
  rw [hh] at this
  exact this

theorem stripChars_idem (p : Char → Bool) (l : Str) :
    stripChars p (stripChars p l) = stripChars p l :=
  stripChars_eq_self (fun _ h => stripChars_head h) (fun _ h => stripChars_getLast h)

theorem asciiLower_cases (c : Char) :
    asciiLower c = c ∨ ∃ q ∈ lowerTable, q.1 = c ∧ asciiLower c = q.2 := by
  unfold asciiLower
  cases h : lowerTable.find? (fun p => p.1 == c) with
  | none => exact Or.inl rfl
  | some q =>
    refine Or.inr ⟨q, List.mem_of_find?_eq_some h, ?_, by simp [h]⟩
    have := List.find?_some h
    exact eq_of_beq this

theorem lowerTable_no_space :
    ∀ q ∈ lowerTable, isSpaceChar q.1 = false ∧ isSpaceChar q.2 = false := by decide

theorem lowerTable_no_special : ∀ q ∈ lowerTable,
    q.1 ≠ '\n' ∧ q.2 ≠ '\n' ∧ q.1 ≠ dquote ∧ q.2 ≠ dquote ∧
    q.1 ≠ squote ∧ q.2 ≠ squote ∧ q.1.toNat < 128 ∧ q.2.toNat < 128 := by decide

theorem lowerTable_not_key :
    ∀ q ∈ lowerTable, lowerTable.find? (fun p => p.1 == q.2) = none := by decide

theorem isSpaceChar_asciiLower (c : Char) :
    isSpaceChar (asciiLower c) = isSpaceChar c := by
  rcases asciiLower_cases c with h | ⟨q, hq, hq1, hq2⟩
  · rw [h]
  · rw [hq2, (lowerTable_no_space q hq).2, ← hq1, (lowerTable_no_space q hq).1]

theorem asciiLower_eq_newline {c : Char} (h : asciiLower c = '\n') : c = '\n' := by
  rcases asciiLower_cases c with h' | ⟨q, hq, hq1, hq2⟩
  · rwa [h'] at h
  · rw [hq2] at h
    exact absurd h (lowerTable_no_special q hq).2.1

theorem asciiLower_ascii {c : Char} (h : c.toNat < 128) :
    (asciiLower c).toNat < 128 := by
  rcases asciiLower_cases c with h' | ⟨q, hq, _, hq2⟩
  · rwa [h']
  · rw [hq2]
    exact (lowerTable_no_special q hq).2.2.2.2.2.2.2

theorem asciiLower_idem (c : Char) : asciiLower (asciiLower c) = asciiLower c := by
  rcases asciiLower_cases c with h' | ⟨q, hq, _, hq2⟩
  · rw [h', h']
  · rw [hq2]
    unfold asciiLower
    rw [lowerTable_not_key q hq]
    rfl

theorem unidecodeTable_ascii :
    ∀ q ∈ unidecodeTable, ∀ d ∈ q.2, d.toNat < 128 ∧ d ≠ '\n' := by decide

theorem unidecodeChar_ascii {c d : Char} (h : d ∈ unidecodeChar c) :
    d.toNat < 128 := by
  unfold unidecodeChar at h
  split at h
  · rcases List.mem_singleton.mp h with rfl
    assumption
  · cases hf : unidecodeTable.find? (fun p => p.1 == c) with
    | none => rw [hf] at h; cases h
    | some q =>
      rw [hf] at h
      exact (unidecodeTable_ascii q (List.mem_of_find?_eq_some hf) d h).1

theorem unidecodeChar_no_newline {c d : Char} (hc : c ≠ '\n')
    (h : d ∈ unidecodeChar c) : d ≠ '\n' := by
  unfold unidecodeChar at h
  split at h
  · rcases List.mem_singleton.mp h with rfl
    exact hc
  · cases hf : unidecodeTable.find? (fun p => p.1 == c) with
    | none => rw [hf] at h; cases h
    | some q =>
      rw [hf] at h
      exact (unidecodeTable_ascii q (List.mem_of_find?_eq_some hf) d h).2

theorem unidecode_ascii {s : Str} {d : Char} (h : d ∈ unidecode s) :
    d.toNat < 128 := by
  unfold unidecode at h
  rcases List.mem_flatten.mp h with ⟨l, hl, hd⟩
  rcases List.mem_map.mp hl with ⟨c, _, rfl⟩
  exact unidecodeChar_ascii hd

theorem unidecode_no_newline {s : Str} (hs : '\n' ∉ s) : '\n' ∉ unidecode s := by
  intro h
  rcases List.mem_flatten.mp h with ⟨l, hl, hd⟩
  rcases List.mem_map.mp hl with ⟨c, hc, rfl⟩
  exact unidecodeChar_no_newline (fun hq => hs (hq ▸ hc)) hd rfl

theorem unidecode_eq_self : ∀ {s : Str}, (∀ c ∈ s, c.toNat < 128) → unidecode s = s
  | [], _ => rfl
  | c :: t, h => by
    have hc : unidecodeChar c = [c] := by
      unfold unidecodeChar
      rw [if_pos (h c (List.mem_cons_self c t))]
    show (List.map unidecodeChar (c :: t)).flatten = c :: t
    rw [List.map_cons, List.flatten_cons, hc]
    have := unidecode_eq_self (s := t) (fun d hd => h d (List.mem_cons_of_mem c hd))
    unfold unidecode at this
    rw [this]
    rfl

theorem subNewline_no_newline (l : Str) : '\n' ∉ subNewline l := by
  intro h
  rcases List.mem_map.mp h with ⟨d, _, hd⟩
  by_cases hdn : d == '\n'
  · rw [if_pos hdn] at hd; cases hd
  · rw [if_neg hdn] at hd; exact hdn (by rw [hd]; rfl)

theorem map_eq_self_of_mem {f : Char → Char} :
    ∀ {l : Str}, (∀ c ∈ l, f c = c) → l.map f = l
  | [], _ => rfl
  | c :: t, h => by
    rw [List.map_cons, h c (List.mem_cons_self c t),
      map_eq_self_of_mem (fun d hd => h d (List.mem_cons_of_mem c hd))]

theorem subNewline_eq_self {l : Str} (h : '\n' ∉ l) : subNewline l = l :=
  map_eq_self_of_mem (fun c hc => by
    have : ¬(c == '\n') = true := fun hb => h (eq_of_beq hb ▸ hc)
    simp [this])

theorem preProcess_eq_core (s : Str) :
    preProcess s = if (ppCore s).isEmpty then none else some (ppCore s) := rfl

theorem preProcess_some {s r : Str} (h : preProcess s = some r) :
    r = ppCore s ∧ r ≠ [] := by
  rw [preProcess_eq_core] at h
  by_cases he : (ppCore s).isEmpty
  · rw [if_pos he] at h; cases h
  · rw [if_neg he] at h
    have hr : ppCore s = r := Option.some.inj h
    subst hr
    exact ⟨rfl, fun hnil => he (by rw [hnil]; rfl)⟩

theorem ppCore_mem {s : Str} {c : Char} (h : c ∈ ppCore s) :
    ∃ d ∈ unidecode s, c = asciiLower (if d == '\n' then ' ' else d) := by
  unfold ppCore at h
  have h7 := stripChars_subset h
  rcases List.mem_map.mp h7 with ⟨c', hc6, rfl⟩
  have hc3 := stripChars_subset (stripChars_subset (stripChars_subset hc6))
  rcases List.mem_map.mp hc3 with ⟨d, hd2, rfl⟩
  exact ⟨d, collapseAux_subset _ _ _ hd2, rfl⟩

theorem ppCore_ascii {s : Str} : ∀ c ∈ ppCore s, c.toNat < 128 := by
  intro c hc
  rcases ppCore_mem hc with ⟨d, hd, rfl⟩
  have hda := unidecode_ascii hd
  apply asciiLower_ascii
  by_cases hdn : d == '\n'
  · rw [if_pos hdn]; decide
  · rwa [if_neg hdn]

theorem ppCore_no_newline {s : Str} : '\n' ∉ ppCore s := by
  intro h
  rcases ppCore_mem h with ⟨d, _, hd⟩
  have := asciiLower_eq_newline hd.symm
  by_cases hdn : d == '\n'
  · rw [if_pos hdn] at this; cases this
  · rw [if_neg hdn] at this; exact hdn (by rw [this]; rfl)

theorem ppCore_lowered {s : Str} : ∀ c ∈ ppCore s, asciiLower c = c := by
  intro c hc
  rcases ppCore_mem hc with ⟨d, _, rfl⟩
  exact asciiLower_idem _

theorem ppCore_ws_stripped (s : Str) :
    stripChars pyIsSpace (ppCore s) = ppCore s :=
  stripChars_idem pyIsSpace _

theorem ppCore_noAdj {s : Str} (hs : '\n' ∉ s) :
    hasAdj isSpaceChar (ppCore s) = false := by
  have h1 : '\n' ∉ unidecode s := unidecode_no_newline hs
  have h2 : hasAdj isSpaceChar (collapseSpaces (unidecode s)) = false :=
    collapseSpaces_noAdj _
  have h2n : '\n' ∉ collapseSpaces (unidecode s) :=
    fun hm => h1 (collapseAux_subset _ _ _ hm)
  have h3 : subNewline (collapseSpaces (unidecode s)) =
      collapseSpaces (unidecode s) := subNewline_eq_self h2n
  unfold ppCore
  rw [h3]
  apply hasAdj_within (stripChars_within _ _)
  rw [hasAdj_map isSpaceChar_asciiLower]
  exact hasAdj_within (stripChars_within _ _)
    (hasAdj_within (stripChars_within _ _)
      (hasAdj_within (stripChars_within _ _) h2))

/-- Shared: `preProcess` never returns `some []`. -/
theorem preProcess_ne_nil {s : Str} (h : preProcess s = some []) : False :=
  (preProcess_some h).2 rfl

/-- C1 counterexample: `preProcess` is not idempotent.  On `"a\n\nb"` it
returns `"a  b"` (the two newlines become two adjacent spaces, since the
space-collapsing substitution runs before the newline substitution), and a
second application collapses them to `"a b"`, a different string: the first
result has two adjacent spaces, the second does not. -/
theorem preProcess_not_idempotent_cex :
    preProcess "a\n\nb".toList = some "a  b".toList ∧
    preProcess "a  b".toList = some "a b".toList ∧
    hasAdj isSpaceChar "a  b".toList = true ∧
    hasAdj isSpaceChar "a b".toList = false := by decide

/-- C1 (amended): `preProcess` is idempotent on every input whose (non-null)
result contains no two adjacent spaces and neither starts nor ends with a
quote character: if `preProcess x = some r` and `r` has no adjacent spaces
and no quote at either end, then `preProcess r = some r`. -/
theorem preProcess_idem_amended (x r : Str) (h : preProcess x = some r)
    (hadj : hasAdj isSpaceChar r = false) (hq : noQuoteEnds r = true) :
    preProcess r = some r := by
  obtain ⟨hr, hne⟩ := preProcess_some h
  subst hr
  have hascii : ∀ c ∈ ppCore x, c.toNat < 128 := ppCore_ascii
  have hnl : '\n' ∉ ppCore x := ppCore_no_newline
  have hlow : ∀ c ∈ ppCore x, asciiLower c = c := ppCore_lowered
  have hws : stripChars pyIsSpace (ppCore x) = ppCore x := ppCore_ws_stripped x
  unfold noQuoteEnds at hq
  rw [Bool.and_eq_true] at hq
  obtain ⟨hq1, hq2⟩ := hq
  have hqh : ∀ c, (ppCore x).head? = some c →
      (c == dquote) = false ∧ (c == squote) = false := by
    intro c hc
    rw [hc] at hq1
    rw [Bool.not_eq_true'] at hq1
    have : (c == dquote || c == squote) = false := hq1
    exact Bool.or_eq_false_iff.mp this
  have hql : ∀ c, (ppCore x).getLast? = some c →
      (c == dquote) = false ∧ (c == squote) = false := by
    intro c hc
    rw [hc] at hq2
    rw [Bool.not_eq_true'] at hq2
    have : (c == dquote || c == squote) = false := hq2
    exact Bool.or_eq_false_iff.mp this
  have hcore : ppCore (ppCore x) = ppCore x := by
    show stripChars pyIsSpace
      ((stripChars (fun c => c == squote)
        (stripChars (fun c => c == dquote)
          (stripChars pyIsSpace
            (subNewline (collapseSpaces (unidecode (ppCore x))))))).map asciiLower) =
      ppCore x
    rw [unidecode_eq_self hascii, collapseSpaces_eq_self hadj,
      subNewline_eq_self hnl, hws,
      stripChars_eq_self (fun c hc => (hqh c hc).1) (fun c hc => (hql c hc).1),
      stripChars_eq_self (fun c hc => (hqh c hc).2) (fun c hc => (hql c hc).2),
      map_eq_self_of_mem hlow, hws]
  have hempty : (ppCore x).isEmpty = false := by
    cases hpp : ppCore x with
    | nil => exact absurd hpp hne
    | cons a t => rfl
  rw [preProcess_eq_core, hcore, hempty]
  rfl

/-- C1 witness: a concrete instance of the amended idempotence theorem. -/
theorem preProcess_idem_amended_witness :
    preProcess "abc".toList = some "abc".toList :=
  preProcess_idem_amended "Abc".toList "abc".toList (by decide) (by decide) (by decide)

/-- C2 counterexample: the returned non-null value can contain two adjacent
whitespace characters.  `"a\n\nb"` normalizes to `"a  b"` (two adjacent
spaces: newlines are replaced by spaces only after the space-collapsing
substitution has run), and `"a\t\tb"` normalizes to itself (runs of tabs are
never collapsed: the substitution collapses only runs of spaces, not general
whitespace). -/
theorem preProcess_whitespace_cex :
    preProcess "a\n\nb".toList = some "a  b".toList ∧
    hasAdj pyIsSpace "a  b".toList = true ∧
    preProcess "a\t\tb".toList = some "a\t\tb".toList ∧
    hasAdj pyIsSpace "a\t\tb".toList = true := by decide

/-- C2 (amended): `preProcess` applies, in this order: transliterate
non-ASCII characters to their closest ASCII equivalents; collapse every run
of two or more space characters to a single space; replace each newline
character by a space; strip leading/trailing whitespace and quote
characters; lower-case — and when the input contains no newline character,
the returned non-null value never contains two adjacent space characters. -/
theorem preProcess_steps_amended (s : Str) :
    preProcess s =
      (if (stripChars pyIsSpace
            ((stripChars (fun c => c == squote)
              (stripChars (fun c => c == dquote)
                (stripChars pyIsSpace
                  (subNewline (collapseSpaces (unidecode s)))))).map asciiLower)).isEmpty
       then none
       else some (stripChars pyIsSpace
            ((stripChars (fun c => c == squote)
              (stripChars (fun c => c == dquote)
                (stripChars pyIsSpace
                  (subNewline (collapseSpaces (unidecode s)))))).map asciiLower))) ∧
    ('\n' ∉ s → ∀ r, preProcess s = some r → hasAdj isSpaceChar r = false) := by
  refine ⟨rfl, fun hnl r h => ?_⟩
  rw [(preProcess_some h).1]
  exact ppCore_noAdj hnl

/-- C2 witness: a concrete instance of the amended step/adjacency theorem. -/
theorem preProcess_steps_amended_witness :
    hasAdj isSpaceChar "a b".toList = false :=
  (preProcess_steps_amended "a  b".toList).2 (by decide) "a b".toList (by decide)

/-- C3 counterexample: a null input does not pass through as null —
`preProcess(None)` raises a `TypeError` (`unidecode` rejects `None`), it
does not return `None`. -/
theorem preProcess_none_cex :
    preProcessPy none = Except.error PyError.typeError := rfl

/-- C3 (amended): `preProcess` raises no error on any input string (every
string input yields a non-error, non-empty-string result), but a null input
raises a `TypeError` rather than passing through as null. -/
theorem preProcess_total_on_strings :
    ∀ s : Str, ∃ r : Option Str, preProcessPy (some s) = Except.ok r ∧
      r.all (fun l => !l.isEmpty) = true := by
  intro s
  refine ⟨preProcess s, rfl, ?_⟩
  cases hp : preProcess s with
  | none => rfl
  | some r =>
    have hne := (preProcess_some hp).2
    cases hr : r with
    | nil => exact absurd hr hne
    | cons a t => rfl

/-- C8: `preProcess` never returns the empty string: every returned value is
either null or a non-empty string (the final `if not column` test replaces
an empty result by `None`). -/
theorem preProcess_never_empty (s : Str) :
    (preProcess s).all (fun l => !l.isEmpty) = true := by
  cases hp : preProcess s with
  | none => rfl
  | some r =>
    have hne := (preProcess_some hp).2
    cases hr : r with
    | nil => exact absurd hr hne
    | cons a t => rfl

theorem lookupKey_cons {α β : Type} [BEq α] (a : α) (b : β) (d : List (α × β)) (k : α) :
    lookupKey ((a, b) :: d) k = if a == k then some b else lookupKey d k := by
  unfold lookupKey
  by_cases h : (a == k) = true
  · rw [List.find?_cons_of_pos _ (by exact h), if_pos h]
    rfl
  · rw [List.find?_cons_of_neg _ (by exact h), if_neg h]

theorem lookupKey_dictInsert {α β : Type} [BEq α] [LawfulBEq α] :
    ∀ (d : List (α × β)) (k k' : α) (v : β),
    lookupKey (dictInsert d k v) k' = if k' == k then some v else lookupKey d k'
  | [], k, k', v => by
    show lookupKey [(k, v)] k' = _
    rw [lookupKey_cons]
    by_cases h : k' = k
    · subst h; simp
    · have h1 : (k == k') = false := beq_eq_false_iff_ne.mpr (fun hh => h hh.symm)
      have h2 : (k' == k) = false := beq_eq_false_iff_ne.mpr h
      simp [h1, h2]
  | q :: d, k, k', v => by
    obtain ⟨a, b⟩ := q
    show lookupKey (if a == k then (a, v) :: d else (a, b) :: dictInsert d k v) k' = _
    by_cases hak : (a == k) = true
    · rw [if_pos hak, lookupKey_cons, lookupKey_cons]
      have hae : a = k := eq_of_beq hak
      subst hae
      by_cases h : k' = a
      · subst h; simp
      · have h1 : (a == k') = false := beq_eq_false_iff_ne.mpr (fun hh => h hh.symm)
        have h2 : (k' == a) = false := beq_eq_false_iff_ne.mpr h
        simp [h1, h2]
    · rw [if_neg hak, lookupKey_cons, lookupKey_dictInsert d k k' v, lookupKey_cons]
      by_cases h1 : (a == k') = true
      · have hak' : a = k' := eq_of_beq h1
        by_cases h2 : (k' == k) = true
        · exact absurd (by rw [hak']; exact h2) hak
        · simp [h1, h2]
      · simp [h1]

theorem dictInsert_cons {α β : Type} [BEq α] (a : α) (b : β) (d : List (α × β))
    (k : α) (v : β) :
    dictInsert ((a, b) :: d) k v =
      if a == k then (a, v) :: d else (a, b) :: dictInsert d k v := rfl

theorem dictInsert_mem {α β : Type} [BEq α] [LawfulBEq α] :
    ∀ (d : List (α × β)) (k : α) (v : β) (q : α × β),
    q ∈ dictInsert d k v → q = (k, v) ∨ q ∈ d
  | [], k, v, q => by
    intro h
    exact Or.inl (List.mem_singleton.mp h)
  | p :: d, k, v, q => by
    obtain ⟨a, b⟩ := p
    intro h
    show q = (k, v) ∨ q ∈ (a, b) :: d
    by_cases hak : (a == k) = true
    · rw [dictInsert_cons, if_pos hak] at h
      rcases List.mem_cons.mp h with h1 | h2
      · exact Or.inl (by rw [h1, eq_of_beq hak])
      · exact Or.inr (List.mem_cons_of_mem _ h2)
    · rw [dictInsert_cons, if_neg hak] at h
      rcases List.mem_cons.mp h with h1 | h2
      · exact Or.inr (h1 ▸ List.mem_cons_self _ _)
      · rcases dictInsert_mem d k v q h2 with h3 | h4
        · exact Or.inl h3
        · exact Or.inr (List.mem_cons_of_mem _ h4)

theorem dictInsert_fresh {α β : Type} [BEq α] :
    ∀ (d : List (α × β)) (k : α) (v : β),
    (∀ a ∈ d, (a.1 == k) = false) → dictInsert d k v = d ++ [(k, v)]
  | [], _, _, _ => rfl
  | p :: d, k, v, h => by
    show (if p.1 == k then (p.1, v) :: d else p :: dictInsert d k v) = _
    rw [if_neg (by rw [h p (List.mem_cons_self p d)]; exact Bool.false_ne_true),
      dictInsert_fresh d k v (fun a ha => h a (List.mem_cons_of_mem p ha))]
    rfl

theorem foldl_dictInsert_fresh {α β : Type} [BEq α] [LawfulBEq α] :
    ∀ (ps : List (α × β)) (acc : List (α × β)),
    (ps.map (fun q => q.1)).Nodup →
    (∀ p ∈ ps, ∀ a ∈ acc, a.1 ≠ p.1) →
    ps.foldl (fun d q => dictInsert d q.1 q.2) acc = acc ++ ps
  | [], acc, _, _ => (List.append_nil acc).symm
  | p :: ps, acc, hnd, hfresh => by
    rw [List.foldl_cons,
      dictInsert_fresh acc p.1 p.2
        (fun a ha => beq_eq_false_iff_ne.mpr
          (hfresh p (List.mem_cons_self p ps) a ha))]
    have hnd' := hnd
    rw [List.map_cons, List.nodup_cons] at hnd'
    rw [foldl_dictInsert_fresh ps (acc ++ [(p.1, p.2)]) hnd'.2 ?fresh]
    · rw [List.append_assoc]
      rfl
    case fresh =>
      intro q hq a ha
      rcases List.mem_append.mp ha with h1 | h2
      · exact hfresh q (List.mem_cons_of_mem p hq) a h1
      · rw [List.mem_singleton.mp h2]
        intro hcontra
        exact hnd'.1 (hcontra ▸ List.mem_map_of_mem (fun q => q.1) hq)

theorem pyDict_eq_self {α β : Type} [BEq α] [LawfulBEq α] {l : List (α × β)}
    (h : (l.map (fun q => q.1)).Nodup) : pyDict l = l := by
  unfold pyDict
  rw [foldl_dictInsert_fresh l [] h (fun p _ a ha => absurd ha (List.not_mem_nil a))]
  rfl

theorem readDataAux_mem :
    ∀ (rows : List Row) (d₀ d : List (Str × CleanRow)),
    readDataAux rows d₀ = .ok d →
    ∀ q ∈ d, q ∈ d₀ ∨ ∃ r ∈ rows, lookupKey r "listing_id" = some q.1 ∧
      q.2 = pyDict (cleanRow r)
  | [], d₀, d, hok, q, hq => by
    cases hok
    exact Or.inl hq
  | row :: rest, d₀, d, hok, q, hq => by
    cases hrid : lookupKey row "listing_id" with
    | none =>
      simp only [readDataAux, hrid] at hok
      cases hok
    | some rid =>
      simp only [readDataAux, hrid] at hok
      rcases readDataAux_mem rest _ d hok q hq with h1 | ⟨r, hr, hlid, hval⟩
      · rcases dictInsert_mem d₀ rid _ q h1 with h2 | h3
        · refine Or.inr ⟨row, List.mem_cons_self _ _, ?_, ?_⟩
          · rw [h2]
            exact hrid
          · rw [h2]
        · exact Or.inl h3
      · exact Or.inr ⟨r, List.mem_cons_of_mem _ hr, hlid, hval⟩

theorem getLast?_cons_isSome {α : Type} (a : α) :
    ∀ (l : List α), ((a :: l).getLast?).isSome = true
  | [] => rfl
  | b :: l => by
    rw [List.getLast?_cons_cons]
    exact getLast?_cons_isSome b l

theorem readDataAux_ok :
    ∀ (rows : List Row),
    (∀ r ∈ rows, (lookupKey r "listing_id").isSome = true) →
    ∀ d₀ : List (Str × CleanRow), ∃ d, readDataAux rows d₀ = .ok d ∧
      ∀ id : Str, lookupKey d id =
        (match (rows.filter (fun r => lookupKey r "listing_id" == some id)).getLast? with
         | some r => some (pyDict (cleanRow r))
         | none => lookupKey d₀ id)
  | [], _, d₀ => ⟨d₀, rfl, fun _ => rfl⟩
  | row :: rest, hall, d₀ => by
    have hrow := hall row (List.mem_cons_self row rest)
    cases hrid : lookupKey row "listing_id" with
    | none => rw [hrid] at hrow; cases hrow
    | some rid =>
      obtain ⟨d, hok, hlook⟩ := readDataAux_ok rest
        (fun r hr => hall r (List.mem_cons_of_mem row hr))
        (dictInsert d₀ rid (pyDict (cleanRow row)))
      refine ⟨d, by simp only [readDataAux, hrid]; exact hok, fun id => ?_⟩
      rw [hlook id, List.filter_cons]
      by_cases hmatch : (lookupKey row "listing_id" == some id) = true
      · have hrideq : rid = id := by
          rw [hrid] at hmatch
          exact Option.some.inj (eq_of_beq hmatch)
        rw [if_pos hmatch]
        cases hfr : rest.filter (fun r => lookupKey r "listing_id" == some id) with
        | nil =>
          show lookupKey (dictInsert d₀ rid (pyDict (cleanRow row))) id = _
          rw [lookupKey_dictInsert]
          simp [hrideq]
        | cons r' t =>
          rw [List.getLast?_cons_cons]
          cases hg : (r' :: t).getLast? with
          | some r => rfl
          | none =>
            have := getLast?_cons_isSome r' t
            rw [hg] at this
            cases this
      · rw [if_neg hmatch]
        have hne : (id == rid) = false := by
          rw [hrid] at hmatch
          refine beq_eq_false_iff_ne.mpr (fun hh => hmatch ?_)
          rw [hh]
          exact beq_self_eq_true _
        cases hfr : (rest.filter (fun r => lookupKey r "listing_id" == some id)).getLast? with
        | some r => rfl
        | none =>
          show lookupKey (dictInsert d₀ rid (pyDict (cleanRow row))) id = lookupKey d₀ id
          rw [lookupKey_dictInsert]
          simp [hne]

/-- C10: when two or more input rows share the same `listing_id` value,
`readData` raises no error and keeps only the last such row's (cleaned)
fields: for every id, the returned mapping holds exactly the cleaned dict
of the *last* row of the input carrying that id, so all earlier rows with
the same id are discarded. -/
theorem readData_duplicate_last_wins (rows : List Row)
    (h : ∀ r ∈ rows, (lookupKey r "listing_id").isSome = true) :
    ∃ d, readData rows = .ok d ∧
      ∀ id : Str, lookupKey d id =
        ((rows.filter (fun r => lookupKey r "listing_id" == some id)).getLast?).map
          (fun r => pyDict (cleanRow r)) := by
  obtain ⟨d, hok, hlook⟩ := readDataAux_ok rows h []
  refine ⟨d, hok, fun id => ?_⟩
  rw [hlook id]
  cases hfr : (rows.filter (fun r => lookupKey r "listing_id" == some id)).getLast? with
  | some r => rfl
  | none => rfl

/-- C10 witness: two rows with the same `listing_id` `"1"`; the mapping
holds the second row's cleaned fields (`name` value `"b"`), the first row's
are gone, and no error is raised. -/
theorem readData_duplicate_last_wins_witness :
    ∃ d, readData [[("listing_id", ['1']), ("name", ['A'])],
                   [("listing_id", ['1']), ("name", ['B'])]] = .ok d ∧
      ∀ id : Str, lookupKey d id =
        (([[(("listing_id" : String), (['1'] : Str)), ("name", ['A'])],
           [("listing_id", ['1']), ("name", ['B'])]].filter
            (fun r => lookupKey r "listing_id" == some id)).getLast?).map
          (fun r => pyDict (cleanRow r)) :=
  readData_duplicate_last_wins
    [[("listing_id", ['1']), ("name", ['A'])],
     [("listing_id", ['1']), ("name", ['B'])]] (by decide)

theorem cleanRow_keys (r : Row) :
    (cleanRow r).map (fun q => q.1) = r.map (fun q => q.1) := by
  unfold cleanRow
  rw [List.map_map]
  rfl

theorem lookupKey_cleanRow : ∀ (r : Row) (k : String),
    lookupKey (cleanRow r) k = (lookupKey r k).map preProcess
  | [], _ => rfl
  | (a, b) :: r, k => by
    show lookupKey ((a, preProcess b) :: cleanRow r) k = _
    rw [lookupKey_cons, lookupKey_cons]
    by_cases h : (a == k) = true
    · rw [if_pos h, if_pos h]
      rfl
    · rw [if_neg h, if_neg h, lookupKey_cleanRow r k]

/-- C9: `readData` keys the returned mapping by the *raw* `listing_id` value
of each row, while every stored field value — including the `listing_id`
field itself — is the normalized (`preProcess`-ed) value: every entry of the
result comes from a row whose raw id equals the entry's key, its stored
record is the cleaned row, and the id stored *inside* the record is
`preProcess` of the key (so key and stored identifier can differ). -/
theorem readData_raw_key_normalized (rows : List Row) (d : List (Str × CleanRow))
    (hkeys : ∀ r ∈ rows, (r.map (fun q => q.1)).Nodup)
    (hok : readData rows = .ok d) (q : Str × CleanRow) (hq : q ∈ d) :
    ∃ r ∈ rows, lookupKey r "listing_id" = some q.1 ∧
      q.2 = cleanRow r ∧ lookupKey q.2 "listing_id" = some (preProcess q.1) := by
  rcases readDataAux_mem rows [] d hok q hq with h1 | ⟨r, hr, hlid, hval⟩
  · exact absurd h1 (List.not_mem_nil q)
  · have hpd : pyDict (cleanRow r) = cleanRow r :=
      pyDict_eq_self (by rw [cleanRow_keys]; exact hkeys r hr)
    refine ⟨r, hr, hlid, by rw [hval, hpd], ?_⟩
    rw [hval, hpd, lookupKey_cleanRow, hlid]
    rfl

/-- C9 witness: the row with raw id `"AB"` is stored under key `"AB"` while
the `listing_id` value stored inside the record is the normalized `"ab"`. -/
theorem readData_raw_key_normalized_witness :
    ∃ r ∈ [[(("listing_id" : String), (['A', 'B'] : Str))]],
      lookupKey r "listing_id" = some ['A', 'B'] ∧
      ([(("listing_id" : String), some (['a', 'b'] : Str))] : CleanRow) = cleanRow r ∧
      lookupKey [(("listing_id" : String), some (['a', 'b'] : Str))] "listing_id" =
        some (preProcess ['A', 'B']) :=
  readData_raw_key_normalized [[("listing_id", ['A', 'B'])]]
    [(['A', 'B'], [("listing_id", some ['a', 'b'])])] (by decide) (by rfl)
    ((['A', 'B'], [("listing_id", some ['a', 'b'])])) (by decide)

theorem inner_fold_eq {σ : Type} (i : Nat) (recs : List Str) (scores : List σ)
    (acc : List (Str × (Nat × σ))) :
    (recs.zip scores).foldl (fun a rs => dictInsert a rs.1 (i, rs.2)) acc =
      ((recs.zip scores).map (fun rs => (rs.1, (i, rs.2)))).foldl
        (fun a q => dictInsert a q.1 q.2) acc := by
  rw [List.foldl_map]

theorem writeResults_fold {σ : Type} :
    ∀ (cds : List (List Str × List σ)) (n : Nat) (acc : List (Str × (Nat × σ))),
    ((cds.map (fun c => c.1)).flatten).Nodup →
    (∀ c ∈ cds, c.1.length = c.2.length) →
    (∀ q ∈ acc, ∀ rid ∈ (cds.map (fun c => c.1)).flatten, q.1 ≠ rid) →
    ((cds.enumFrom n).foldl
      (fun acc ic =>
        (ic.2.1.zip ic.2.2).foldl (fun a rs => dictInsert a rs.1 (ic.1, rs.2)) acc)
      acc)
    = acc ++ ((cds.enumFrom n).map
        (fun ic => (ic.2.1.zip ic.2.2).map (fun rs => (rs.1, (ic.1, rs.2))))).flatten
  | [], n, acc, _, _, _ => by simp
  | c :: rest, n, acc, hnd, hlen, hfresh => by
    have hnd' := hnd
    rw [List.map_cons, List.flatten_cons, List.nodup_append] at hnd'
    obtain ⟨hndc, hndrest, hdisj⟩ := hnd'
    have hclen : c.1.length = c.2.length := hlen c (List.mem_cons_self c rest)
    have hfst : (c.1.zip c.2).map Prod.fst = c.1 :=
      List.map_fst_zip c.1 c.2 (le_of_eq hclen)
    show ((c.1.zip c.2).foldl (fun a rs => dictInsert a rs.1 (n, rs.2)) acc
        |> (rest.enumFrom (n + 1)).foldl
          (fun acc ic =>
            (ic.2.1.zip ic.2.2).foldl (fun a rs => dictInsert a rs.1 (ic.1, rs.2)) acc))
      = _
    rw [inner_fold_eq n c.1 c.2 acc]
    rw [foldl_dictInsert_fresh ((c.1.zip c.2).map (fun rs => (rs.1, (n, rs.2)))) acc
      (by
        rw [List.map_map]
        have : ((fun q : Str × (Nat × σ) => q.1) ∘ fun rs : Str × σ => (rs.1, (n, rs.2)))
            = Prod.fst := rfl
        rw [this, hfst]
        exact hndc)
      (by
        intro p hp a ha
        rcases List.mem_map.mp hp with ⟨rs, hrs, rfl⟩
        have : rs.1 ∈ c.1 := by
          rw [← hfst]
          exact List.mem_map_of_mem Prod.fst hrs
        exact hfresh a ha rs.1
          (List.mem_flatten.mpr ⟨c.1, List.mem_map_of_mem _ (List.mem_cons_self c rest), this⟩))]
    rw [writeResults_fold rest (n + 1)
      (acc ++ (c.1.zip c.2).map (fun rs => (rs.1, (n, rs.2)))) hndrest
      (fun c' hc' => hlen c' (List.mem_cons_of_mem c hc'))
      (by
        intro q hq rid hrid
        rcases List.mem_append.mp hq with h1 | h2
        · exact hfresh q h1 rid
            (by
              rw [List.map_cons, List.flatten_cons]
              exact List.mem_append.mpr (Or.inr hrid))
        · rcases List.mem_map.mp h2 with ⟨rs, hrs, rfl⟩
          have : rs.1 ∈ c.1 := by
            rw [← hfst]
            exact List.mem_map_of_mem Prod.fst hrs
          exact fun hcontra => hdisj this (hcontra ▸ hrid))]
    rw [List.append_assoc]
    rfl

/-- C7: `writeResults` assigns cluster identifiers as consecutive integers
starting at 0, in cluster production order, and maps every record of every
cluster to exactly its cluster's identifier paired with that record's
confidence score: on any clustered-duplicates list whose record identifiers
are pairwise distinct and whose record and score lists have equal lengths
(as the clusterer guarantees), the built membership mapping equals the
specification mapping `writeResultsSpec`. -/
theorem writeResults_correct {σ : Type} (clustered_dupes : List (List Str × List σ))
    (hnd : ((clustered_dupes.map (fun c => c.1)).flatten).Nodup)
    (hlen : ∀ c ∈ clustered_dupes, c.1.length = c.2.length) :
    writeResults clustered_dupes = writeResultsSpec clustered_dupes := by
  unfold writeResults writeResultsSpec
  show ((clustered_dupes.enumFrom 0).foldl _ []) = _
  rw [writeResults_fold clustered_dupes 0 [] hnd hlen
    (fun q hq => absurd hq (List.not_mem_nil q))]
  rfl

/-- C7 witness: two clusters; cluster 0 holds records `"a"`, `"b"` with
scores 10 and 20, cluster 1 holds `"c"` with score 30. -/
theorem writeResults_correct_witness :
    writeResults [([['a'], ['b']], [10, 20]), ([['c']], [30])] =
      writeResultsSpec [([['a'], ['b']], [(10 : Nat), 20]), ([['c']], [30])] :=
  writeResults_correct [([['a'], ['b']], [10, 20]), ([['c']], [30])]
    (by decide) (by decide)

/-- C6: whenever the settings file exists, `setup` loads the stored model
and uses it directly for matching: the trace is exactly a settings read
followed by the match call (so no labeling, no training, and no write of
either file happens), the on-disk state is returned unchanged, and the
match runs with the stored model. -/
theorem setup_settings_bypass (fs : FS) (rows : List Row) (session : List Lbl)
    (m : Model) (hset : fs.settings = some m)
    (d : List (Str × CleanRow)) (hdata : readData rows = .ok d) :
    setup fs rows session = (fs, [.readSettings, .matchCall], .ok (m, d)) := by
  simp only [setup, hdata, hset]

/-- C6 witness: a settings file holding a stored model is used directly;
nothing is labeled, trained, or written. -/
theorem setup_settings_bypass_witness :
    setup ⟨none, some [((['x'], ['y']), true)]⟩ [[("listing_id", ['1'])]] [] =
      (⟨none, some [((['x'], ['y']), true)]⟩, [.readSettings, .matchCall],
       .ok ([((['x'], ['y']), true)], [(['1'], [("listing_id", some ['1'])])])) :=
  setup_settings_bypass ⟨none, some [((['x'], ['y']), true)]⟩
    [[("listing_id", ['1'])]] [] [((['x'], ['y']), true)] rfl
    [(['1'], [("listing_id", some ['1'])])] rfl

/-- C5: with no settings file and a labeled set containing zero negative
(distinct) examples, training fails with `InsufficientTrainingDataError`,
the on-disk state is unchanged (in particular no settings file is written),
and no settings-write action occurs. -/
theorem setup_no_negatives_error (fs : FS) (rows : List Row) (session : List Lbl)
    (hset : fs.settings = none)
    (d : List (Str × CleanRow)) (hdata : readData rows = .ok d)
    (hneg : (fs.training.getD [] ++ session).all (fun l => l.2) = true) :
    (setup fs rows session).2.2 = .error .insufficientTrainingData ∧
    (setup fs rows session).1 = fs ∧
    Event.writeSettings ∉ (setup fs rows session).2.1 := by
  have hany : (fs.training.getD [] ++ session).any (fun l => !l.2) = false := by
    rw [List.any_eq_false]
    intro x hx
    have hx2 := List.all_eq_true.mp hneg x hx
    simp [hx2]
  have htr : trainModel (fs.training.getD [] ++ session) =
      .error .insufficientTrainingData := by
    unfold trainModel
    rw [hany, Bool.and_false]
    rfl
  simp only [setup, hdata, hset, htr]
  refine ⟨trivial, trivial, ?_⟩
  cases ht : fs.training <;> simp

/-- C5 witness: a training file holding one positive example and a session
adding none: training fails and the settings file stays absent. -/
theorem setup_no_negatives_error_witness :
    (setup ⟨some [((['1'], ['2']), true)], none⟩ [[("listing_id", ['1'])]] []).2.2 =
      .error .insufficientTrainingData ∧
    (setup ⟨some [((['1'], ['2']), true)], none⟩ [[("listing_id", ['1'])]] []).1 =
      ⟨some [((['1'], ['2']), true)], none⟩ ∧
    Event.writeSettings ∉
      (setup ⟨some [((['1'], ['2']), true)], none⟩ [[("listing_id", ['1'])]] []).2.1 :=
  setup_no_negatives_error ⟨some [((['1'], ['2']), true)], none⟩
    [[("listing_id", ['1'])]] [] rfl
    [(['1'], [("listing_id", some ['1'])])] rfl (by decide)

/-- C4 counterexample: the settings and training files are absent, the
session gathers one labeled example, and training then fails — the run
ends in `InsufficientTrainingDataError` with the training file still
absent.  The LabeledExample accumulated during the session is *not* on
disk: `write_training` runs only after `train()` succeeds. -/
theorem setup_labels_lost_cex :
    setup ⟨none, none⟩ [[("listing_id", ['1'])]] [((['1'], ['2']), true)] =
      (⟨none, none⟩, [.prepTrainingFresh, .consoleLabel, .trainCall],
       .error .insufficientTrainingData) ∧
    (⟨none, none⟩ : FS).training = none :=
  ⟨rfl, rfl⟩

/-- C4 (amended): if `setup` fails at any stage, the on-disk state is left
exactly as it was before the call: LabeledExamples already in the training
file remain intact, but the examples gathered during the failed
active-learning session are not persisted, because the training file is
written only after training succeeds. -/
theorem setup_failure_leaves_disk_unchanged (fs : FS) (rows : List Row)
    (session : List Lbl) (e : SetupError)
    (h : (setup fs rows session).2.2 = .error e) :
    (setup fs rows session).1 = fs := by
  cases hdata : readData rows with
  | error pe => simp only [setup, hdata]
  | ok d =>
    cases hset : fs.settings with
    | some m =>
      simp only [setup, hdata, hset] at h
      cases h
    | none =>
      cases htr : trainModel (fs.training.getD [] ++ session) with
      | error e' => simp only [setup, hdata, hset, htr]
      | ok m =>
        simp only [setup, hdata, hset, htr] at h
        cases h

/-- C4 witness: a failed run (training fails for lack of negative examples)
leaves the on-disk state unchanged. -/
theorem setup_failure_leaves_disk_unchanged_witness :
    (setup ⟨some [((['1'], ['2']), true)], none⟩ [[("listing_id", ['1'])]] []).1 =
      ⟨some [((['1'], ['2']), true)], none⟩ :=
  setup_failure_leaves_disk_unchanged ⟨some [((['1'], ['2']), true)], none⟩
    [[("listing_id", ['1'])]] [] .insufficientTrainingData rfl
